import Mathlib

/-!
Verification development for the `morph` package (a Russian morphological
analyzer over compiled pymorphy2 dictionaries).

The embedding models words as lists of characters (Go strings are UTF-8;
every operation the analyzer performs respects rune boundaries, so a
`List Char` of runes is the faithful functional view).  The two DAWG
automata and the prediction automata are external to the shallow
embedding: their implementation file is not part of the analyzed sources,
only their call sites are, so they enter the model as opaque lookup
functions inside the environment (spec 4.1 gives their interface:
`similarItems` returning matched keys with payload lists, and an exact
integer `find`).  All analyzer logic from `morph.go` / `extended.go` is
translated directly.
-/

/-- A word: the sequence of runes of a Go string. -/
abbrev Word := List Char

/-- Convenience: runes of a string literal. -/
def str (s : String) : Word := s.data

/-- Lowering of one character, as Go `strings.ToLower` acts on the
alphabets this analyzer processes (ASCII letters and Russian Cyrillic,
including Ё→ё). -/
def lowerChar (c : Char) : Char :=
  if 'A' ≤ c ∧ c ≤ 'Z' then Char.ofNat (c.toNat + 32)
  else if 'А' ≤ c ∧ c ≤ 'Я' then Char.ofNat (c.toNat + 32)
  else if c = 'Ё' then 'ё'
  else c

/-- Go `strings.ToLower` on a word (restricted to the analyzer's
alphabets). -/
def toLowerRu (w : Word) : Word := w.map lowerChar

/-- Payload record of the lexical automaton after decoding its two
big-endian 16-bit fields (`morph.go`: `binary.BigEndian.Uint16(v)` and
`binary.BigEndian.Uint16(v[2:])`). -/
structure LexValue where
  paraNum : Nat
  index : Nat
deriving DecidableEq

/-- One `(matchedKey, payloads)` result of the lexical automaton's
approximate lookup (`similarItems`). -/
structure Item where
  key : Word
  values : List LexValue
deriving DecidableEq

/-- Payload record of a prediction automaton after decoding its three
big-endian 16-bit fields (`extended.go`: count, paradigm number, form
index). -/
structure PredValue where
  count : Nat
  paraNum : Nat
  index : Nat
deriving DecidableEq

/-- One approximate-lookup result of a prediction automaton. -/
structure PItem where
  key : Word
  values : List PredValue
deriving DecidableEq

/-- The process-wide dictionary state after a successful initialization
(the globals of `morph.go` with `probDAWG ≠ nil`).  The three automata
appear as their lookup functions: the DAWG implementation itself is not
among the analyzed sources, only its call sites are, so it is modelled
from the spec — spec 4.1/4.5 specify `approximateMatches` (here
`similarItems`, one per automaton) and the probability index's exact
`find`. -/
structure Env where
  prefixes : List Word
  suffixes : List Word
  tags : List Word
  paradigms : List (List Nat)
  similarItems : Word → List Item
  probFind : Word → Nat
  predictionItems : List (Word → List PItem)

/-- An analysis triple as returned to callers. -/
structure Analysis where
  word : Word
  norm : Word
  tag : Word
deriving DecidableEq

/-- Go `strings.TrimPrefix`: drop `pre` from the front iff it is a
prefix, otherwise unchanged. -/
def trimPref (s pre : Word) : Word :=
  if pre.isPrefixOf s then s.drop pre.length else s

/-- Go `strings.TrimSuffix`: drop `suf` from the end iff it is a suffix,
otherwise unchanged. -/
def trimSuff (s suf : Word) : Word :=
  if suf.isSuffixOf s then s.take (s.length - suf.length) else s

/-- `prefixSuffixTag` from `morph.go`: decode form `i` of a paradigm into
its (prefix, suffix, tag) strings.  Go indexes the paradigm and the three
tables directly (panicking out of range); the model totalizes the
out-of-range case with default values, and the theorems about decoding
carry in-bounds hypotheses. -/
def prefixSuffixTag (env : Env) (para : List Nat) (i : Nat) : Word × Word × Word :=
  let n := para.length / 3
  (env.prefixes.getD (para.getD (i + 2 * n) 0) [],
   env.suffixes.getD (para.getD i 0) [],
   env.tags.getD (para.getD (i + n) 0) [])

/-- One analysis row of the dictionary analyzer: the loop body of `Parse`
(`morph.go` lines 74–91) for one payload `v` of a matched key `key`:
decode the form, and reconstruct the normal form (for a non-lemma form,
strip the form's own affixes from the key and re-apply form 0's). -/
def lexRow (env : Env) (key : Word) (v : LexValue) : Analysis :=
  let para := env.paradigms.getD v.paraNum []
  let pst := prefixSuffixTag env para v.index
  let norm :=
    if v.index ≠ 0 then
      let stem := trimSuff (trimPref key pst.1) pst.2.1
      let pst0 := prefixSuffixTag env para 0
      pst0.1 ++ stem ++ pst0.2.1
    else key
  ⟨key, norm, pst.2.2⟩

/-- The candidate set of `Parse` in automaton-traversal order, each row
paired with its probability weight `probDAWG.Dict.find(word + ":" + tag)`
(`morph.go` line 93; the Go code divides the integer by 1e6 into a
float only to compare weights with each other and with zero, which the
integer weights decide identically). -/
def parseRaw (env : Env) (word : Word) : List (Analysis × Nat) :=
  (env.similarItems word).flatMap fun it =>
    it.values.map fun v =>
      let a := lexRow env it.key v
      (a, env.probFind (word ++ str ":" ++ a.tag))

/-- Whether some candidate has a strictly positive weight
(`hasNonzeroProb` in `morph.go`). -/
def hasPosProb (l : List (Analysis × Nat)) : Bool := l.any fun r => 0 < r.2

/-- The order used by `sort.Stable(&parse{...})`: `a` may be placed
before `b` when `b`'s weight does not exceed `a`'s (Go `Less(i, j)` is
`probs[i] > probs[j]`, descending). -/
def probLe (a b : Analysis × Nat) : Bool := decide (b.2 ≤ a.2)

/-- Stable insertion of `x` into a list: `x` goes in front of the first
element it may precede. -/
def ordInsert (le : α → α → Bool) (x : α) : List α → List α
  | [] => [x]
  | y :: ys => if le x y then x :: y :: ys else y :: ordInsert le x ys

/-- Stable insertion sort; extensionally this is the contract of Go's
`sort.Stable` (a stable sort's output is uniquely determined by the
comparator). -/
def insSort (le : α → α → Bool) : List α → List α
  | [] => []
  | x :: xs => ordInsert le x (insSort le xs)

/-- The ranked candidate set of `Parse`: stably sorted by descending
weight when some weight is positive, otherwise the raw traversal order
(`morph.go` lines 101–103). -/
def parseRanked (env : Env) (word : Word) : List (Analysis × Nat) :=
  let rows := parseRaw env word
  if hasPosProb rows then insSort probLe rows else rows

/-- The analysis rows returned by the dictionary analyzer. -/
def ParseRows (env : Env) (word : Word) : List Analysis :=
  (parseRanked env word).map (·.1)

/-- Unzip analysis rows into the three parallel result slices; every
append site in the Go code extends `words`, `norms` and `tags` together,
which this row view captures. -/
def toTriple (rows : List Analysis) : List Word × List Word × List Word :=
  (rows.map Analysis.word, rows.map Analysis.norm, rows.map Analysis.tag)

/-- `Parse` from `morph.go` (on an initialized dictionary): analyze a
word via the lexical automaton, rank by the probability index. -/
def Parse (env : Env) (word : Word) : List Word × List Word × List Word :=
  toTriple (ParseRows env word)

example : trimPref (str "cats") (str "ca") = str "ts" := by decide
example : trimSuff (str "cats") (str "s") = str "cat" := by decide
example : toLowerRu (str "КоТ-X") = str "кот-x" := by decide

/-- The clitic particles that may follow a hyphen (`extended.go`,
`particlesAfterHyphen`). -/
def particlesAfterHyphen : List Word :=
  (["-то", "-ка", "-таки", "-де", "-тко", "-тка", "-с", "-ста"].map str)

/-- The closed set of non-productive grammemes (`extended.go`,
`nonproductiveGrammemes`). -/
def nonproductiveGrammemes : List Word :=
  (["NUMR", "NPRO", "PRED", "PREP", "CONJ", "PRCL", "INTJ", "Apro"].map str)

/-- `productive` from `extended.go`: a tag is productive when it contains
no non-productive grammeme as a substring (`strings.Contains`; the
grammemes are ASCII, so byte containment coincides with rune
containment). -/
def productive (tag : Word) : Bool :=
  nonproductiveGrammemes.all fun g => !(decide (g <:+: tag))

/-- `wordSplits` from `extended.go`: all splits into a front of
1..`maxPrefLen` runes and a remainder of at least `minRemainder` runes. -/
def wordSplits (s : Word) (minRemainder maxPrefLen : Nat) : List (Word × Word) :=
  let n := min maxPrefLen (s.length - minRemainder)
  (List.range n).map fun i => (s.take (i + 1), s.drop (i + 1))

/-- `split5` from `extended.go`: peel up to five trailing runes, one at a
time, stopping before the front would become empty; entry `i` is
(front, trailing `i+1` runes). -/
def split5 (s : Word) : List (Word × Word) :=
  (List.range 5).filterMap fun i =>
    if i + 2 ≤ s.length then
      some (s.take (s.length - (i + 1)), s.drop (s.length - (i + 1)))
    else none

/-- The whitelisted grammemes of `emptyUnlessFeature` (`extended.go`):
parts of speech, numbers, cases, persons, tenses. -/
def featureWhitelist : List Word :=
  (["NOUN", "ADJF", "ADJS", "COMP", "VERB", "INFN", "PRTF", "PRTS", "GRND",
    "NUMR", "ADVB", "NPRO", "PRED", "PREP", "CONJ", "PRCL", "INTJ",
    "sing", "plur",
    "nomn", "gent", "datv", "accs", "ablt", "loct", "voct", "gen2", "acc2", "loc2",
    "1per", "2per", "3per",
    "pres", "past", "futr"].map str)

/-- `emptyUnlessFeature` from `extended.go`: normalize the rare case
variants loc1/gen1, keep whitelisted grammemes, blank everything else. -/
def emptyUnlessFeature (s : Word) : Word :=
  if s = str "loc1" then str "loct"
  else if s = str "gen1" then str "gent"
  else if featureWhitelist.contains s then s
  else []

/-- Separators of the `[^ ,]+` token pattern in `similarityFeatures`. -/
def isSep (c : Char) : Bool := c = ' ' || c = ','

/-- The token walk of `similarityFeatures`: `tok` is the (reversed)
non-separator run read so far; a separator flushes the run through
`emptyUnlessFeature` and is kept verbatim. -/
def simFeatAux (tok : Word) : Word → Word
  | [] => emptyUnlessFeature tok.reverse
  | c :: cs =>
    if isSep c then emptyUnlessFeature tok.reverse ++ c :: simFeatAux [] cs
    else simFeatAux (c :: tok) cs

/-- `similarityFeatures` from `extended.go`: rewrite every maximal run of
non-separator characters through `emptyUnlessFeature`, keeping the
separators (`rFeature.ReplaceAllStringFunc` with pattern `[^ ,]+`). -/
def similarityFeatures (tag : Word) : Word := simFeatAux [] tag

example : similarityFeatures (str "NOUN,anim,masc sing,nomn") = str "NOUN,, sing,nomn" := by decide
example : similarityFeatures (str "loc1") = str "loct" := by decide

/-- The recognized word-formation prefixes (`extended.go`,
`knownPrefixes`), in source order. -/
def knownPrefixes : List Word :=
  (["авиа", "авто", "аква", "анти-", "анти", "антропо", "арт-", "арт",
    "архи", "астро", "аудио", "аэро", "без", "бес", "био", "вело",
    "взаимо", "видео", "вице-", "вне", "внутри", "вперед", "впереди",
    "гекто", "гелио", "гео", "гетеро", "гига", "гигро", "гипер", "гипо",
    "гомо", "дву", "двух", "де", "дез", "дека", "деци", "дис", "до",
    "евро", "за", "зоо", "интер", "инфра", "квази-", "квази", "кило",
    "кино", "контр-", "контр", "космо-", "космо", "крипто", "лейб-",
    "лже-", "лже", "макро", "макси-", "макси", "мало", "мега", "медиа-",
    "медиа", "меж", "мета-", "мета", "метео", "метро", "микро", "милли",
    "мини-", "мини", "много", "моно", "мото", "мульти", "нано", "нарко",
    "не", "небез", "недо", "нейро", "нео", "низко", "обер-", "обще",
    "одно", "около", "орто", "палео", "пан", "пара", "пента", "пере",
    "пиро", "поли", "полу", "порно", "после", "пост-", "пост", "пра-",
    "пра", "пред", "пресс-", "противо-", "противо", "прото", "псевдо-",
    "псевдо", "радио", "разно", "ре", "ретро-", "ретро", "само", "санти",
    "сверх-", "сверх", "спец", "суб", "супер-", "супер", "супра", "теле",
    "тетра", "топ-", "транс-", "транс", "ультра", "унтер-", "штаб-",
    "экзо", "эко", "эконом-", "экс-", "экс", "экстра-", "экстра",
    "электро", "эндо", "энерго", "этно"].map str)

/-- UTF-8 byte width of a character (Go `len` counts bytes). -/
def charBytes (c : Char) : Nat :=
  if c.toNat < 0x80 then 1 else if c.toNat < 0x800 then 2
  else if c.toNat < 0x10000 then 3 else 4

/-- Byte length of a word (Go `len(s)`). -/
def byteLen (w : Word) : Nat := (w.map charBytes).sum

/-- Lexicographic strict order on words; for valid UTF-8, Go's byte-wise
string `<` coincides with the code-point order. -/
def wordLt : Word → Word → Bool
  | [], [] => false
  | [], _ :: _ => true
  | _ :: _, [] => false
  | a :: as, b :: bs => if a < b then true else if b < a then false else wordLt as bs

/-- The comparator of the `init` sort in `extended.go` as a total
preorder: longer (in bytes) first, ties broken lexicographically. -/
def prefLe (a b : Word) : Bool :=
  if byteLen a = byteLen b then wordLt a b || a == b
  else decide (byteLen b < byteLen a)

/-- `knownPrefixes` after the `init` sort of `extended.go` (the
comparator is a strict total order on the distinct entries, so the sorted
sequence is unique and unaffected by `sort.Slice` being unstable). -/
def knownPrefixesSorted : List Word := insSort prefLe knownPrefixes

set_option maxRecDepth 40000 in
example : knownPrefixesSorted.take 4 = [str "противо-", str "антропо", str "впереди", str "противо"] := by decide

/-- Strategy (a), `HyphenSeparatedParticleAnalyzer` (`extended.go` lines
305–320): try each known particle in order; on the first whose removal
makes the word analyzable, reattach the literal particle to every word
and normal form, keeping tags. -/
def tryParticles (rec : Word → List Analysis) (word : Word) : List Word → Option (List Analysis)
  | [] => none
  | p :: ps =>
    if p.isSuffixOf word then
      let rows := rec (trimSuff word p)
      if rows ≠ [] then
        some (rows.map fun r => ⟨r.word ++ p, r.norm ++ p, r.tag⟩)
      else tryParticles rec word ps
    else tryParticles rec word ps

/-- Strategy (b), `HyphenAdverbAnalyzer`'s result builder (`extended.go`
lines 326–336): the first recursive analysis whose tag starts with ADJF
and contains "sing,datv" yields the single по- adverb triple. -/
def advbRow (rows : List Analysis) : Option (List Analysis) :=
  match rows.find? fun r =>
      (str "ADJF").isPrefixOf r.tag && decide ((str "sing,datv") <:+: r.tag) with
  | some r => some [⟨str "по-" ++ r.word, str "по-" ++ r.word, str "ADVB"⟩]
  | none => none

/-- Strategy (c), `KnownPrefixAnalyzer` (`extended.go` lines 340–357):
for every known prefix of the word leaving a remainder of at least three
runes, recursively analyze the remainder and keep the productive
analyses, re-prefixed; accumulated over all matching prefixes. -/
def stripKnown (rec : Word → List Analysis) (ps : List Word) (word : Word) : List Analysis :=
  ps.flatMap fun p =>
    if p.isPrefixOf word && decide (3 ≤ (word.drop p.length).length) then
      ((rec (word.drop p.length)).filter fun r => productive r.tag).map
        fun r => ⟨p ++ r.word, p ++ r.norm, r.tag⟩
    else []

/-- The agreement half of strategy (d) (`extended.go` lines 377–387):
every (left, right) candidate pair with character-equal feature
signatures becomes a compound carrying the left tag. -/
def agreementPairs (leftRows rightRows : List Analysis) : List Analysis :=
  leftRows.flatMap fun l =>
    (rightRows.filter fun r => similarityFeatures l.tag == similarityFeatures r.tag).map
      fun r => ⟨l.word ++ '-' :: r.word, l.norm ++ '-' :: r.norm, l.tag⟩

/-- The fixed-left half of strategy (d) (`extended.go` lines 388–392):
every right candidate prefixed by the literal left part. -/
def fixedLeftRows (left : Word) (rightRows : List Analysis) : List Analysis :=
  rightRows.map fun r => ⟨left ++ '-' :: r.word, left ++ '-' :: r.norm, r.tag⟩

/-- `strings.SplitN(word, "-", 2)`: the part before the first hyphen and
the part after it. -/
def hyphenParts (word : Word) : Word × Word :=
  (word.takeWhile (· ≠ '-'), (word.dropWhile (· ≠ '-')).drop 1)

/-- Strategy (d), `HyphenatedWordsAnalyzer` (`extended.go` lines
366–396): analyze both hyphen parts; agreement compounds first, then
fixed-left compounds. -/
def hyphenCompound (rec : Word → List Analysis) (word : Word) : List Analysis :=
  let lrows := rec (hyphenParts word).1
  let rrows := rec (hyphenParts word).2
  agreementPairs lrows rrows ++ fixedLeftRows (hyphenParts word).1 rrows

/-- Strategy (e), `UnknownPrefixAnalyzer` (`extended.go` lines 401–412):
split off 1..5 leading runes leaving at least 3, run the base dictionary
analyzer on the remainder, keep productive analyses re-prefixed. -/
def unknownPref (env : Env) (word : Word) : List Analysis :=
  (wordSplits word 3 5).flatMap fun sp =>
    ((ParseRows env sp.2).filter fun r => productive r.tag).map
      fun r => ⟨sp.1 ++ r.word, sp.1 ++ r.norm, r.tag⟩

/-- The accumulated-triple duplicate test of strategy (f) (`extended.go`
lines 452–456). -/
def dedupHit (acc : List Analysis) (a : Analysis) : Bool :=
  acc.any fun b => b.tag == a.tag && b.word == a.word && b.norm == a.norm

/-- The payload loop of strategy (f) (`extended.go` lines 430–461): for
each payload, decode; skip non-productive tags; add the match count; on
a duplicate of an already-accumulated triple, abandon the remaining
payloads of this item (`continue sloop`); otherwise append the row. -/
def fValues (env : Env) (wordStart key : Word) :
    List Analysis → Nat → List PredValue → List Analysis × Nat
  | acc, cnt, [] => (acc, cnt)
  | acc, cnt, v :: vs =>
    if productive (lexRow env (wordStart ++ key) ⟨v.paraNum, v.index⟩).tag then
      if dedupHit acc (lexRow env (wordStart ++ key) ⟨v.paraNum, v.index⟩) then
        (acc, cnt + v.count)
      else
        fValues env wordStart key
          (acc ++ [lexRow env (wordStart ++ key) ⟨v.paraNum, v.index⟩]) (cnt + v.count) vs
    else fValues env wordStart key acc cnt vs

/-- The item loop (`sloop`) of strategy (f) over one trailing
substring's approximate matches. -/
def fItems (env : Env) (wordStart : Word) :
    List Analysis → Nat → List PItem → List Analysis × Nat
  | acc, cnt, [] => (acc, cnt)
  | acc, cnt, it :: its =>
    fItems env wordStart (fValues env wordStart it.key acc cnt it.values).1
      (fValues env wordStart it.key acc cnt it.values).2 its

/-- The trailing-substring loop of strategy (f) (`extended.go` lines
425–466), longest substring first; once the running count exceeds 1
after a fully processed substring, stop. -/
def fSplits (env : Env) (dawg : Word → List PItem) :
    List Analysis → Nat → List (Word × Word) → List Analysis
  | acc, _, [] => acc
  | acc, cnt, sp :: rest =>
    if 1 < (fItems env sp.1 acc cnt (dawg sp.2)).2 then (fItems env sp.1 acc cnt (dawg sp.2)).1
    else fSplits env dawg (fItems env sp.1 acc cnt (dawg sp.2)).1
      (fItems env sp.1 acc cnt (dawg sp.2)).2 rest

/-- The prefix-class loop of strategy (f) (`extended.go` lines 419–467):
each paradigm-prefix class that prefixes the word runs the substring
loop with a fresh count, over its own prediction automaton. -/
def fClasses (env : Env) (word : Word) (splits : List (Word × Word)) :
    List Analysis → List (Word × (Word → List PItem)) → List Analysis
  | acc, [] => acc
  | acc, pd :: rest =>
    fClasses env word splits
      (if pd.1.isPrefixOf word then fSplits env pd.2 acc 0 splits else acc) rest

/-- Strategy (f), `KnownSuffixAnalyzer` (`extended.go` lines 417–468):
only for words of at least four runes; extends the accumulator built by
strategy (e). -/
def knownSuffixStrategy (env : Env) (word : Word) (acc : List Analysis) : List Analysis :=
  if 4 ≤ word.length then
    fClasses env word (split5 word).reverse acc (env.prefixes.zip env.predictionItems)
  else acc

/-- The body of `XParse` (`extended.go` lines 294–471) over an abstract
recursive-call function `rec` (the self-calls of `XParse`); `word` is the
already-lowercased input.  Dictionary hits win; then strategies (a)–(d)
each return on success; otherwise the merged output of (e) and (f). -/
def xparseBody (rec : Word → List Analysis) (env : Env) (word : Word) : List Analysis :=
  if ParseRows env word ≠ [] then ParseRows env word else
  match (if word.contains '-' then tryParticles rec word particlesAfterHyphen else none) with
  | some res => res
  | none =>
  match (if 5 ≤ word.length ∧ (str "по-").isPrefixOf word
         then advbRow (rec (word.drop 3)) else none) with
  | some res => res
  | none =>
  if stripKnown rec knownPrefixesSorted word ≠ [] then stripKnown rec knownPrefixesSorted word else
  match (if (word.contains '-' && (word.count '-' == 1) &&
             !((str "-").isPrefixOf word) && !((str "-").isSuffixOf word)) = true ∧
            hyphenCompound rec word ≠ []
         then some (hyphenCompound rec word)
         else none) with
  | some res => res
  | none =>
  knownSuffixStrategy env word (unknownPref env word)

/-- Fuel-indexed recursion for `XParse`: every self-call of `XParse` is
on a strictly shorter string (a nonempty particle, the по- prefix, a
nonempty known prefix, or one hyphen part is removed), so any fuel
exceeding the word length computes the fixpoint.  `XParse` lowercases its
input on entry. -/
def xparseCore : Nat → Env → Word → List Analysis
  | 0, _, _ => []
  | fuel + 1, env, w => xparseBody (xparseCore fuel env) env (toLowerRu w)

/-- The analysis rows of `XParse` at the canonical (sufficient) fuel. -/
def XParseRows (env : Env) (w : Word) : List Analysis :=
  xparseCore (w.length + 1) env w

/-- `XParse` from `extended.go`: the extended analyzer over an
initialized dictionary. -/
def XParse (env : Env) (w : Word) : List Word × List Word × List Word :=
  toTriple (XParseRows env w)

theorem toTriple_lengths (rows : List Analysis) :
    (toTriple rows).1.length = (toTriple rows).2.1.length ∧
    (toTriple rows).2.1.length = (toTriple rows).2.2.length := by
  simp [toTriple]

/-- Claim C3: for every input word (including words absent from the
dictionary), both `Parse` and `XParse` return three lists — words, norms,
tags — of equal length, index-aligned by construction (each position of
the three lists is the projection of one analysis row). -/
theorem parse_xparse_equal_lengths (env : Env) (w : Word) :
    ((Parse env w).1.length = (Parse env w).2.1.length ∧
     (Parse env w).2.1.length = (Parse env w).2.2.length) ∧
    ((XParse env w).1.length = (XParse env w).2.1.length ∧
     (XParse env w).2.1.length = (XParse env w).2.2.length) :=
  ⟨toTriple_lengths _, toTriple_lengths _⟩

/-- Claim C1: whenever the dictionary analyzer finds the lowercased word
(`Parse` returns non-empty lists), `XParse` returns exactly that result —
same words, norms and tags in the same order — and no fallback strategy
contributes. -/
theorem xparse_dictionary_precedence (env : Env) (w : Word)
    (h : (Parse env (toLowerRu w)).1 ≠ []) :
    XParse env w = Parse env (toLowerRu w) := by
  have hrows : ParseRows env (toLowerRu w) ≠ [] := by
    intro he
    exact h (by simp [Parse, toTriple, he])
  show toTriple (xparseCore (w.length + 1) env w) = _
  rw [xparseCore, xparseBody, if_pos hrows]
  rfl

/-- A small concrete dictionary: one entry "cat" with a one-form
paradigm, no probability data. -/
def envDict : Env where
  prefixes := [[]]
  suffixes := [[]]
  tags := [str "NOUN"]
  paradigms := [[0, 0, 0]]
  similarItems := fun w => if w = str "cat" then [⟨str "cat", [⟨0, 0⟩]⟩] else []
  probFind := fun _ => 0
  predictionItems := [fun _ => []]

theorem xparse_dictionary_precedence_witness :
    (Parse envDict (toLowerRu (str "CAT"))).1 ≠ [] ∧
    XParse envDict (str "CAT") = Parse envDict (toLowerRu (str "CAT")) :=
  ⟨by decide, xparse_dictionary_precedence envDict (str "CAT") (by decide)⟩

theorem mem_ordInsert (le : α → α → Bool) (x y : α) (l : List α) :
    y ∈ ordInsert le x l ↔ y = x ∨ y ∈ l := by
  induction l with
  | nil => simp [ordInsert]
  | cons a l ih =>
    rw [ordInsert]
    split
    · simp
    · simp only [List.mem_cons, ih]
      tauto

theorem pairwise_ordInsert (x : Analysis × Nat) (l : List (Analysis × Nat))
    (h : l.Pairwise fun a b => b.2 ≤ a.2) :
    (ordInsert probLe x l).Pairwise fun a b => b.2 ≤ a.2 := by
  induction l with
  | nil => simp [ordInsert]
  | cons a l ih =>
    rw [ordInsert]
    rcases List.pairwise_cons.1 h with ⟨ha, hl⟩
    by_cases hle : probLe x a = true
    · rw [if_pos hle]
      refine List.pairwise_cons.2 ⟨?_, h⟩
      intro b hb
      have hax : a.2 ≤ x.2 := by simpa [probLe] using hle
      rcases List.mem_cons.1 hb with rfl | hb
      · exact hax
      · exact le_trans (ha b hb) hax
    · rw [if_neg hle]
      refine List.pairwise_cons.2 ⟨?_, ih hl⟩
      intro b hb
      rcases (mem_ordInsert probLe x b l).1 hb with rfl | hb
      · have : ¬ a.2 ≤ b.2 := by simpa [probLe] using hle
        omega
      · exact ha b hb

theorem filter_ordInsert (m : Nat) (x : Analysis × Nat) (l : List (Analysis × Nat)) :
    (ordInsert probLe x l).filter (fun r => r.2 == m) =
      if x.2 == m then x :: l.filter (fun r => r.2 == m)
      else l.filter (fun r => r.2 == m) := by
  induction l with
  | nil =>
    rw [ordInsert]
    by_cases hxm : x.2 = m
    · simp [List.filter_cons, hxm]
    · have hxm2 : (x.2 == m) = false := by simpa using hxm
      simp [List.filter_cons, hxm2, hxm]
  | cons a l ih =>
    rw [ordInsert]
    by_cases hle : probLe x a = true
    · rw [if_pos hle]
      by_cases hxm : x.2 = m
      · simp [List.filter_cons, hxm]
      · have hxm2 : (x.2 == m) = false := by simpa using hxm
        simp [List.filter_cons, hxm2, hxm]
    · rw [if_neg hle]
      have hax : x.2 < a.2 := by
        have : ¬ a.2 ≤ x.2 := by simpa [probLe] using hle
        omega
      by_cases hxm : x.2 = m
      · have ham : (a.2 == m) = false := by
          simp only [beq_eq_false_iff_ne]
          omega
        simp [List.filter_cons, ham, ih, hxm]
      · have hxm2 : (x.2 == m) = false := by simpa using hxm
        simp [List.filter_cons, ih, hxm2]

theorem pairwise_insSort (l : List (Analysis × Nat)) :
    (insSort probLe l).Pairwise fun a b => b.2 ≤ a.2 := by
  induction l with
  | nil => simp [insSort]
  | cons a l ih => exact pairwise_ordInsert a _ ih

theorem filter_insSort (m : Nat) (l : List (Analysis × Nat)) :
    (insSort probLe l).filter (fun r => r.2 == m) = l.filter (fun r => r.2 == m) := by
  induction l with
  | nil => simp [insSort]
  | cons a l ih =>
    rw [insSort, filter_ordInsert, List.filter_cons, ih]

/-- Claim C2: each candidate's weight is the probability-index value of
word + ":" + tag; for every weight the sub-list of candidates carrying it
keeps the automaton-traversal order (stability); when some weight is
positive the ranked list is non-increasing by weight; when all weights
are zero the traversal order is returned completely unchanged. -/
theorem parse_ranking_stable_sort (env : Env) (w : Word) :
    (∀ r ∈ parseRaw env w, r.2 = env.probFind (w ++ str ":" ++ r.1.tag)) ∧
    (∀ m : Nat, (parseRanked env w).filter (fun r => r.2 == m) =
        (parseRaw env w).filter (fun r => r.2 == m)) ∧
    (hasPosProb (parseRaw env w) = true →
        (parseRanked env w).Pairwise fun a b => b.2 ≤ a.2) ∧
    (hasPosProb (parseRaw env w) = false → parseRanked env w = parseRaw env w) := by
  refine ⟨?_, ?_, ?_, ?_⟩
  · intro r hr
    rcases List.mem_flatMap.1 hr with ⟨it, _, hv⟩
    rcases List.mem_map.1 hv with ⟨v, _, rfl⟩
    rfl
  · intro m
    rw [parseRanked]
    split
    · exact filter_insSort m _
    · rfl
  · intro hpos
    rw [parseRanked]
    simp only [hpos, if_pos]
    exact pairwise_insSort _
  · intro hzero
    rw [parseRanked]
    simp [hzero]

/-- A dictionary with probability evidence: "aa" has two homonymous
analyses, the second ranked higher by the probability index. -/
def envProb : Env where
  prefixes := [[]]
  suffixes := [[]]
  tags := [str "T0", str "T1"]
  paradigms := [[0, 0, 0], [0, 1, 0]]
  similarItems := fun w => if w = str "aa" then [⟨str "aa", [⟨0, 0⟩, ⟨1, 0⟩]⟩] else []
  probFind := fun k => if k = str "aa:T1" then 5 else 0
  predictionItems := [fun _ => []]

theorem parse_ranking_stable_sort_witness :
    ((lexRow envProb (str "aa") ⟨1, 0⟩, (5 : Nat)) ∈ parseRaw envProb (str "aa") ∧
      (lexRow envProb (str "aa") ⟨1, 0⟩, (5 : Nat)).2 =
        envProb.probFind (str "aa" ++ str ":" ++ (lexRow envProb (str "aa") ⟨1, 0⟩, (5 : Nat)).1.tag)) ∧
    ((parseRanked envProb (str "aa")).filter (fun r => r.2 == 0) =
      (parseRaw envProb (str "aa")).filter (fun r => r.2 == 0)) ∧
    (hasPosProb (parseRaw envProb (str "aa")) = true ∧
      (parseRanked envProb (str "aa")).Pairwise fun a b => b.2 ≤ a.2) ∧
    (hasPosProb (parseRaw envDict (str "cat")) = false ∧
      parseRanked envDict (str "cat") = parseRaw envDict (str "cat")) :=
  ⟨⟨by decide, (parse_ranking_stable_sort envProb (str "aa")).1 _ (by decide)⟩,
   (parse_ranking_stable_sort envProb (str "aa")).2.1 0,
   ⟨by decide, (parse_ranking_stable_sort envProb (str "aa")).2.2.1 (by decide)⟩,
   ⟨by decide, (parse_ranking_stable_sort envDict (str "cat")).2.2.2 (by decide)⟩⟩

/-- Claim C4: every payload (paradigm p, form index i) found for a
matched key is emitted into the candidate set; with n = len(p)/3 its tag
is tags[p[i+n]]; its normal form is the matched key itself when i = 0,
and otherwise form 0's prefix ++ stem ++ form 0's suffix where the stem
is the key with form i's own prefix stripped from the front and form i's
own suffix stripped from the end. -/
theorem parse_paradigm_decode (env : Env) (w : Word) (it : Item) (v : LexValue)
    (p : List Nat)
    (hit : it ∈ env.similarItems w) (hv : v ∈ it.values)
    (hp : env.paradigms.getD v.paraNum [] = p)
    (hsuf : p.getD v.index 0 < env.suffixes.length)
    (htag : p.getD (v.index + p.length / 3) 0 < env.tags.length)
    (hpre : p.getD (v.index + 2 * (p.length / 3)) 0 < env.prefixes.length)
    (hsuf0 : p.getD 0 0 < env.suffixes.length)
    (hpre0 : p.getD (0 + 2 * (p.length / 3)) 0 < env.prefixes.length) :
    (lexRow env it.key v, env.probFind (w ++ str ":" ++ (lexRow env it.key v).tag))
        ∈ parseRaw env w ∧
    (lexRow env it.key v).tag = env.tags.get ⟨p.getD (v.index + p.length / 3) 0, htag⟩ ∧
    (v.index = 0 → (lexRow env it.key v).norm = it.key) ∧
    (v.index ≠ 0 → (lexRow env it.key v).norm =
      env.prefixes.get ⟨p.getD (0 + 2 * (p.length / 3)) 0, hpre0⟩ ++
      trimSuff
        (trimPref it.key
          (env.prefixes.get ⟨p.getD (v.index + 2 * (p.length / 3)) 0, hpre⟩))
        (env.suffixes.get ⟨p.getD v.index 0, hsuf⟩) ++
      env.suffixes.get ⟨p.getD 0 0, hsuf0⟩) := by
  have e1 : (lexRow env it.key v).tag
      = env.tags.getD
          ((env.paradigms.getD v.paraNum []).getD
            (v.index + (env.paradigms.getD v.paraNum []).length / 3) 0) [] := rfl
  rw [hp] at e1
  have e2 : (lexRow env it.key v).norm
      = if v.index ≠ 0 then
          env.prefixes.getD
              ((env.paradigms.getD v.paraNum []).getD
                (0 + 2 * ((env.paradigms.getD v.paraNum []).length / 3)) 0) [] ++
            trimSuff
              (trimPref it.key
                (env.prefixes.getD
                  ((env.paradigms.getD v.paraNum []).getD
                    (v.index + 2 * ((env.paradigms.getD v.paraNum []).length / 3)) 0) []))
              (env.suffixes.getD ((env.paradigms.getD v.paraNum []).getD v.index 0) []) ++
            env.suffixes.getD ((env.paradigms.getD v.paraNum []).getD 0 0) []
        else it.key := rfl
  rw [hp] at e2
  refine ⟨?_, ?_, ?_, ?_⟩
  · exact List.mem_flatMap.2 ⟨it, hit, List.mem_map.2 ⟨v, hv, rfl⟩⟩
  · rw [e1, List.getD_eq_getElem _ _ htag, List.get_eq_getElem]
  · intro h0
    rw [e2, if_neg (by simpa using h0)]
  · intro h0
    rw [e2, if_pos h0,
      List.getD_eq_getElem env.prefixes _ hpre0, List.getD_eq_getElem env.prefixes _ hpre,
      List.getD_eq_getElem env.suffixes _ hsuf, List.getD_eq_getElem env.suffixes _ hsuf0]
    simp [List.get_eq_getElem]

/-- A dictionary with a two-form paradigm ("cat"/"cats": suffix "s",
distinct tags), exercising the non-lemma normal-form reconstruction. -/
def envPara : Env where
  prefixes := [[]]
  suffixes := [[], str "s"]
  tags := [str "NSg", str "NPl"]
  paradigms := [[0, 1, 0, 1, 0, 0]]
  similarItems := fun w => if w = str "cats" then [⟨str "cats", [⟨0, 1⟩]⟩] else []
  probFind := fun _ => 0
  predictionItems := [fun _ => []]

theorem parse_paradigm_decode_witness :
    ((⟨str "cats", [⟨0, 1⟩]⟩ : Item) ∈ envPara.similarItems (str "cats") ∧
      (⟨0, 1⟩ : LexValue) ∈ (⟨str "cats", [⟨0, 1⟩]⟩ : Item).values ∧
      envPara.paradigms.getD 0 [] = [0, 1, 0, 1, 0, 0]) ∧
    (lexRow envPara (str "cats") ⟨0, 1⟩).tag = envPara.tags.get ⟨1, by decide⟩ ∧
    (lexRow envPara (str "cats") ⟨0, 1⟩).norm =
      envPara.prefixes.get ⟨0, by decide⟩ ++
      trimSuff (trimPref (str "cats") (envPara.prefixes.get ⟨0, by decide⟩))
        (envPara.suffixes.get ⟨1, by decide⟩) ++
      envPara.suffixes.get ⟨0, by decide⟩ :=
  ⟨⟨by decide, by decide, by decide⟩,
   (parse_paradigm_decode envPara (str "cats") ⟨str "cats", [⟨0, 1⟩]⟩ ⟨0, 1⟩
      [0, 1, 0, 1, 0, 0] (by decide) (by decide) (by decide) (by decide)
      (by decide) (by decide) (by decide) (by decide)).2.1,
   ((parse_paradigm_decode envPara (str "cats") ⟨str "cats", [⟨0, 1⟩]⟩ ⟨0, 1⟩
      [0, 1, 0, 1, 0, 0] (by decide) (by decide) (by decide) (by decide)
      (by decide) (by decide) (by decide) (by decide)).2.2.2 (by decide))⟩

theorem mem_stripKnown (rec : Word → List Analysis) (ps : List Word) (word : Word)
    (a : Analysis) (h : a ∈ stripKnown rec ps word) : productive a.tag = true := by
  rcases List.mem_flatMap.1 h with ⟨p, _, hin⟩
  by_cases hc : (p.isPrefixOf word && decide (3 ≤ (word.drop p.length).length)) = true
  · rw [if_pos hc] at hin
    rcases List.mem_map.1 hin with ⟨r, hr, rfl⟩
    exact (List.mem_filter.1 hr).2
  · rw [if_neg hc] at hin
    cases hin

theorem mem_unknownPref (env : Env) (word : Word)
    (a : Analysis) (h : a ∈ unknownPref env word) : productive a.tag = true := by
  rcases List.mem_flatMap.1 h with ⟨sp, _, hin⟩
  rcases List.mem_map.1 hin with ⟨r, hr, rfl⟩
  exact (List.mem_filter.1 hr).2

theorem mem_fValues (env : Env) (ws key : Word) (vs : List PredValue) :
    ∀ acc cnt a, a ∈ (fValues env ws key acc cnt vs).1 →
      a ∈ acc ∨ productive a.tag = true := by
  induction vs with
  | nil => exact fun acc cnt a ha => Or.inl ha
  | cons v vs ih =>
    intro acc cnt a ha
    rw [fValues] at ha
    by_cases hprod : productive (lexRow env (ws ++ key) ⟨v.paraNum, v.index⟩).tag = true
    · rw [if_pos hprod] at ha
      by_cases hdup : dedupHit acc (lexRow env (ws ++ key) ⟨v.paraNum, v.index⟩) = true
      · rw [if_pos hdup] at ha
        exact Or.inl ha
      · rw [if_neg hdup] at ha
        rcases ih _ _ a ha with hmem | hp
        · rcases List.mem_append.1 hmem with h1 | h1
          · exact Or.inl h1
          · right
            rw [List.mem_singleton.1 h1]
            exact hprod
        · exact Or.inr hp
    · rw [if_neg hprod] at ha
      exact ih _ _ a ha

theorem mem_fItems (env : Env) (ws : Word) (its : List PItem) :
    ∀ acc cnt a, a ∈ (fItems env ws acc cnt its).1 →
      a ∈ acc ∨ productive a.tag = true := by
  induction its with
  | nil => exact fun acc cnt a ha => Or.inl ha
  | cons it its ih =>
    intro acc cnt a ha
    rw [fItems] at ha
    rcases ih _ _ a ha with hmem | hp
    · rcases mem_fValues env ws it.key it.values acc cnt a hmem with h1 | h1
      · exact Or.inl h1
      · exact Or.inr h1
    · exact Or.inr hp

theorem mem_fSplits (env : Env) (dawg : Word → List PItem) (sps : List (Word × Word)) :
    ∀ acc cnt a, a ∈ fSplits env dawg acc cnt sps →
      a ∈ acc ∨ productive a.tag = true := by
  induction sps with
  | nil => exact fun acc cnt a ha => Or.inl ha
  | cons sp rest ih =>
    intro acc cnt a ha
    rw [fSplits] at ha
    by_cases hcnt : 1 < (fItems env sp.1 acc cnt (dawg sp.2)).2
    · rw [if_pos hcnt] at ha
      exact mem_fItems env sp.1 (dawg sp.2) acc cnt a ha
    · rw [if_neg hcnt] at ha
      rcases ih _ _ a ha with hmem | hp
      · exact mem_fItems env sp.1 (dawg sp.2) acc cnt a hmem
      · exact Or.inr hp

theorem mem_fClasses (env : Env) (word : Word) (splits : List (Word × Word))
    (pds : List (Word × (Word → List PItem))) :
    ∀ acc a, a ∈ fClasses env word splits acc pds →
      a ∈ acc ∨ productive a.tag = true := by
  induction pds with
  | nil => exact fun acc a ha => Or.inl ha
  | cons pd rest ih =>
    intro acc a ha
    rw [fClasses] at ha
    rcases ih _ a ha with hmem | hp
    · by_cases hpre : pd.1.isPrefixOf word = true
      · rw [if_pos hpre] at hmem
        exact mem_fSplits env pd.2 splits acc 0 a hmem
      · rw [if_neg hpre] at hmem
        exact Or.inl hmem
    · exact Or.inr hp

/-- Claim C5: no analysis produced by the known-prefix strip strategy
(c), the unknown-prefix guess strategy (e), or the suffix-family
prediction strategy (f) carries a non-productive tag — strategy (f),
which extends an accumulator, only ever appends productive-tagged rows
to it. -/
theorem fallback_productive_only (env : Env) (rec : Word → List Analysis)
    (word : Word) (acc : List Analysis) (a : Analysis) :
    (a ∈ stripKnown rec knownPrefixesSorted word → productive a.tag = true) ∧
    (a ∈ unknownPref env word → productive a.tag = true) ∧
    (a ∈ knownSuffixStrategy env word acc → a ∈ acc ∨ productive a.tag = true) := by
  refine ⟨mem_stripKnown rec knownPrefixesSorted word a,
          mem_unknownPref env word a, ?_⟩
  intro h
  rw [knownSuffixStrategy] at h
  by_cases hlen : 4 ≤ word.length
  · rw [if_pos hlen] at h
    exact mem_fClasses env word (split5 word).reverse
      (env.prefixes.zip env.predictionItems) acc a h
  · rw [if_neg hlen] at h
    exact Or.inl h

/-- A prediction environment: no dictionary hits, one prediction dawg for
the empty paradigm-prefix class, predicting "ogz" → key "ogs" with a
two-form paradigm and count 2. -/
def envPred : Env where
  prefixes := [[]]
  suffixes := [[], str "s"]
  tags := [str "NSg", str "NPl"]
  paradigms := [[0, 1, 0, 1, 0, 0]]
  similarItems := fun _ => []
  probFind := fun _ => 0
  predictionItems := [fun we => if we = str "ogz" then [⟨str "ogs", [⟨2, 0, 1⟩]⟩] else []]

set_option maxRecDepth 1000000 in
theorem fallback_productive_only_witness :
    ((⟨str "неx", str "неy", str "NOUN"⟩ : Analysis) ∈
        stripKnown (fun _ => [⟨str "x", str "y", str "NOUN"⟩]) knownPrefixesSorted (str "неabc") ∧
      productive (Analysis.tag ⟨str "неx", str "неy", str "NOUN"⟩) = true) ∧
    ((⟨str "xcat", str "xcat", str "NOUN"⟩ : Analysis) ∈ unknownPref envDict (str "xcat") ∧
      productive (Analysis.tag ⟨str "xcat", str "xcat", str "NOUN"⟩) = true) ∧
    ((⟨str "dogs", str "dog", str "NPl"⟩ : Analysis) ∈
        knownSuffixStrategy envPred (str "dogz") [] ∧
      ((⟨str "dogs", str "dog", str "NPl"⟩ : Analysis) ∈ ([] : List Analysis) ∨
        productive (Analysis.tag ⟨str "dogs", str "dog", str "NPl"⟩) = true)) :=
  ⟨⟨by decide,
    (fallback_productive_only envDict (fun _ => [⟨str "x", str "y", str "NOUN"⟩])
      (str "неabc") [] ⟨str "неx", str "неy", str "NOUN"⟩).1 (by decide)⟩,
   ⟨by decide,
    (fallback_productive_only envDict (fun _ => [⟨str "x", str "y", str "NOUN"⟩])
      (str "xcat") [] ⟨str "xcat", str "xcat", str "NOUN"⟩).2.1 (by decide)⟩,
   ⟨by decide,
    (fallback_productive_only envPred (fun _ => [])
      (str "dogz") [] ⟨str "dogs", str "dog", str "NPl"⟩).2.2 (by decide)⟩⟩

theorem simFeatAux_noSep (t : Word) :
    ∀ tok, (∀ x ∈ t, isSep x = false) →
      simFeatAux tok t = emptyUnlessFeature (tok.reverse ++ t) := by
  induction t with
  | nil => intro tok _; simp [simFeatAux]
  | cons a t ih =>
    intro tok hsep
    rw [simFeatAux, if_neg (by simp [hsep a (List.mem_cons_self a t)])]
    rw [ih (a :: tok) fun x hx => hsep x (List.mem_cons_of_mem a hx)]
    simp

theorem simFeatAux_token (t : Word) (c : Char) (rest : Word) :
    ∀ tok, (∀ x ∈ t, isSep x = false) → isSep c = true →
      simFeatAux tok (t ++ c :: rest) =
        emptyUnlessFeature (tok.reverse ++ t) ++ c :: simFeatAux [] rest := by
  induction t with
  | nil => intro tok _ hc; rw [List.nil_append, simFeatAux, if_pos hc]; simp
  | cons a t ih =>
    intro tok hsep hc
    rw [List.cons_append, simFeatAux, if_neg (by simp [hsep a (List.mem_cons_self a t)])]
    rw [ih (a :: tok) (fun x hx => hsep x (List.mem_cons_of_mem a hx)) hc]
    simp

theorem mem_agreementPairs (lrows rrows : List Analysis) (a : Analysis) :
    a ∈ agreementPairs lrows rrows ↔ ∃ l ∈ lrows, ∃ r ∈ rrows,
      similarityFeatures l.tag = similarityFeatures r.tag ∧
      a = ⟨l.word ++ '-' :: r.word, l.norm ++ '-' :: r.norm, l.tag⟩ := by
  constructor
  · intro h
    rcases List.mem_flatMap.1 h with ⟨l, hl, hin⟩
    rcases List.mem_map.1 hin with ⟨r, hr, rfl⟩
    rcases List.mem_filter.1 hr with ⟨hr2, hfeat⟩
    exact ⟨l, hl, r, hr2, by simpa using hfeat, rfl⟩
  · rintro ⟨l, hl, r, hr, hfeat, rfl⟩
    refine List.mem_flatMap.2 ⟨l, hl, List.mem_map.2 ⟨r, List.mem_filter.2 ⟨hr, ?_⟩, rfl⟩⟩
    simpa using hfeat

/-- Counterexample to claim C7 as stated: the token "loc1" (a
grammatical-case grammeme) is neither kept unchanged nor replaced by the
empty string — `similarityFeatures` rewrites it to "loct". -/
theorem similarity_signature_cex :
    similarityFeatures (str "loc1") ≠ str "loc1" ∧
    similarityFeatures (str "loc1") ≠ ([] : Word) ∧
    similarityFeatures (str "loc1") = str "loct" := by
  refine ⟨by decide, by decide, by decide⟩

/-- Claim C7 (amended): the feature signature rewrites each maximal
non-separator token through `emptyUnlessFeature`, keeping separators:
whitelisted grammemes are kept unchanged, the case variants loc1/gen1
are normalized to loct/gent, every other token becomes the empty string;
and in the hyphen-compound strategy a (left, right) candidate pair is
emitted as an agreement compound exactly when the two tags' signatures
are character-equal. -/
theorem similarity_signature_amended (t rest : Word) (c : Char)
    (lrows rrows : List Analysis) (a : Analysis) :
    ((∀ x ∈ t, isSep x = false) → isSep c = true →
      similarityFeatures (t ++ c :: rest) =
        emptyUnlessFeature t ++ c :: similarityFeatures rest) ∧
    ((∀ x ∈ t, isSep x = false) → similarityFeatures t = emptyUnlessFeature t) ∧
    (t ∈ featureWhitelist → emptyUnlessFeature t = t) ∧
    (t ∉ featureWhitelist → t ≠ str "loc1" → t ≠ str "gen1" → emptyUnlessFeature t = []) ∧
    (emptyUnlessFeature (str "loc1") = str "loct" ∧
      emptyUnlessFeature (str "gen1") = str "gent") ∧
    (a ∈ agreementPairs lrows rrows ↔ ∃ l ∈ lrows, ∃ r ∈ rrows,
      similarityFeatures l.tag = similarityFeatures r.tag ∧
      a = ⟨l.word ++ '-' :: r.word, l.norm ++ '-' :: r.norm, l.tag⟩) := by
  refine ⟨?_, ?_, ?_, ?_, ⟨by decide, by decide⟩, mem_agreementPairs lrows rrows a⟩
  · intro hsep hc
    rw [similarityFeatures, simFeatAux_token t c rest [] hsep hc]
    rfl
  · intro hsep
    rw [similarityFeatures, simFeatAux_noSep t [] hsep]
    rfl
  · intro hmem
    have h1 : t ≠ str "loc1" := by rintro rfl; revert hmem; decide
    have h2 : t ≠ str "gen1" := by rintro rfl; revert hmem; decide
    rw [emptyUnlessFeature, if_neg h1, if_neg h2, if_pos (by simpa using hmem)]
  · intro hmem h1 h2
    rw [emptyUnlessFeature, if_neg h1, if_neg h2,
      if_neg (by simpa using hmem)]

theorem similarity_signature_amended_witness :
    ((∀ x ∈ str "sing", isSep x = false) ∧ isSep ',' = true ∧
      similarityFeatures (str "sing" ++ ',' :: str "datv") =
        emptyUnlessFeature (str "sing") ++ ',' :: similarityFeatures (str "datv")) ∧
    (str "sing" ∈ featureWhitelist ∧ emptyUnlessFeature (str "sing") = str "sing") ∧
    (str "anim" ∉ featureWhitelist ∧ emptyUnlessFeature (str "anim") = []) :=
  ⟨⟨by decide, by decide,
    (similarity_signature_amended (str "sing") (str "datv") ','
      [] [] ⟨[], [], []⟩).1 (by decide) (by decide)⟩,
   ⟨by decide,
    (similarity_signature_amended (str "sing") (str "datv") ','
      [] [] ⟨[], [], []⟩).2.2.1 (by decide)⟩,
   ⟨by decide,
    (similarity_signature_amended (str "anim") (str "datv") ','
      [] [] ⟨[], [], []⟩).2.2.2.1 (by decide) (by decide) (by decide)⟩⟩

/-- The top-level `Parse` over the process-wide state: `none` state is
the Go globals before any successful initialization (`probDAWG == nil`),
where `Parse` executes `panic("not initialized; call Init or InitWith")`
(`morph.go` lines 66–68); `none` as result marks that panic. -/
def ParseTop : Option Env → Word → Option (List Word × List Word × List Word)
  | none, _ => none
  | some env, w => some (Parse env w)

/-- The top-level `XParse`: it begins by calling `Parse`, so before
initialization it panics exactly as `Parse` does. -/
def XParseTop : Option Env → Word → Option (List Word × List Word × List Word)
  | none, _ => none
  | some env, w => some (XParse env w)

/-- Counterexample to claim C8 as stated: called before successful
initialization, `Parse` and `XParse` produce no result at all — the Go
code crashes with `panic("not initialized; call Init or InitWith")`
(their signatures carry no error channel, so nothing is "surfaced as an
explicit error/result"). -/
theorem xparse_uninitialized_cex :
    XParseTop none (str "кошка") = none ∧ ParseTop none (str "кошка") = none :=
  ⟨rfl, rfl⟩

/-- Claim C8 (amended): over an initialized analyzer both operations are
total — for every input word `XParse` returns a defined triple of
equal-length (possibly empty) lists; before initialization the call is a
deliberate guarded panic with a "not initialized" message, not an error
return. -/
theorem xparse_initialized_total (env : Env) (w : Word) :
    XParseTop (some env) w = some (XParse env w) ∧
    ParseTop (some env) w = some (Parse env w) ∧
    ((XParse env w).1.length = (XParse env w).2.1.length ∧
     (XParse env w).2.1.length = (XParse env w).2.2.length) :=
  ⟨rfl, rfl, toTriple_lengths _⟩

/-- A resource-loading failure: Go distinguishes `os.IsNotExist` errors
(only consulted for the paradigm-prefix list) from all others. -/
inductive LoadErr where
  | notExist : LoadErr
  | fmt : Nat → LoadErr
deriving DecidableEq

/-- The error results of initialization. -/
inductive InitError where
  | alreadyInitialized : InitError
  | load : LoadErr → InitError
deriving DecidableEq

/-- The package-level globals of `morph.go` (lines 31–41), with the zero
values nil/empty before initialization; `probDAWG.isSome` is the
initialized-state guard the code tests. -/
structure Globals where
  prefixes : List Word
  suffixes : List Word
  tags : List Word
  paradigms : List (List Nat)
  wordsDAWG : Option (Word → List Item)
  probDAWG : Option (Word → Nat)
  predictionDAWGs : List (Word → List PItem)

/-- The loadable content of a dictionary directory, each resource as its
parse result.  `paradigmsPartial` is what the paradigms global holds if
that file fails mid-read (`loadParadigms` assigns and appends before the
error surfaces): `none` when the failure precedes the first assignment,
`some part` for a partially filled array. -/
structure Dir where
  tagsFile : Except LoadErr (List Word)
  prefixesFile : Except LoadErr (List Word)
  suffixesFile : Except LoadErr (List Word)
  paradigmsFile : Except LoadErr (List (List Nat))
  paradigmsPartial : Option (List (List Nat))
  wordsFile : Except LoadErr (Word → List Item)
  probFile : Except LoadErr (Word → Nat)
  predictionFiles : Nat → Except LoadErr (Word → List PItem)

/-- The prediction-automata loop of `InitWith` (`morph.go` lines
168–176): load `prediction-suffixes-i.dawg` for `i` below the prefix
count, appending as it goes; the first failure stops the loop with the
partial list. -/
def loadPredsAux (files : Nat → Except LoadErr (Word → List PItem)) :
    Nat → Nat → List (Word → List PItem) →
      List (Word → List PItem) × Option LoadErr
  | _, 0, acc => (acc, none)
  | i, k + 1, acc =>
    match files i with
    | .error e => (acc, some e)
    | .ok d => loadPredsAux files (i + 1) k (acc ++ [d])

/-- Stage 7 of `InitWith`: the prediction automata. -/
def initPreds (dir : Dir) (g : Globals) : Globals × Option InitError :=
  match loadPredsAux dir.predictionFiles 0 g.prefixes.length [] with
  | (ds, none) => ({ g with predictionDAWGs := ds }, none)
  | (ds, some e) => ({ g with predictionDAWGs := ds }, some (.load e))

/-- Stage 6 of `InitWith`: the probability automaton (`probDAWG, err =
newDAWG(...)` writes the global even on failure, leaving it nil). -/
def initProb (dir : Dir) (g : Globals) : Globals × Option InitError :=
  match dir.probFile with
  | .error e => ({ g with probDAWG := none }, some (.load e))
  | .ok d => initPreds dir { g with probDAWG := some d }

/-- Stage 5 of `InitWith`: the lexical automaton. -/
def initWords (dir : Dir) (g : Globals) : Globals × Option InitError :=
  match dir.wordsFile with
  | .error e => ({ g with wordsDAWG := none }, some (.load e))
  | .ok d => initProb dir { g with wordsDAWG := some d }

/-- Stage 4 of `InitWith`: the paradigm array (`loadParadigms` mutates
the global as it reads). -/
def initParadigms (dir : Dir) (g : Globals) : Globals × Option InitError :=
  match dir.paradigmsFile with
  | .error e =>
    match dir.paradigmsPartial with
    | none => (g, some (.load e))
    | some part => ({ g with paradigms := part }, some (.load e))
  | .ok pr => initWords dir { g with paradigms := pr }

/-- Stage 3 of `InitWith`: the suffix table (the multiple-assignment
`suffixes, err = loadStringArray(...)` nils the global on failure). -/
def initSuffixes (dir : Dir) (g : Globals) : Globals × Option InitError :=
  match dir.suffixesFile with
  | .error e => ({ g with suffixes := [] }, some (.load e))
  | .ok ss => initParadigms dir { g with suffixes := ss }

/-- `InitWith` from `morph.go` (lines 122–179) as a transition on the
globals: reject if already initialized; then load tags, prefixes (a
missing prefix file falls back to the default three classes), suffixes,
paradigms, the two automata and the prediction automata, in that order,
each stage publishing its result to the globals before the next loads. -/
def InitWith (dir : Dir) (g : Globals) : Globals × Option InitError :=
  if g.probDAWG.isSome then (g, some .alreadyInitialized) else
  match dir.tagsFile with
  | .error e => ({ g with tags := [] }, some (.load e))
  | .ok ts =>
    match dir.prefixesFile with
    | .error .notExist =>
      initSuffixes dir { g with tags := ts, prefixes := [[], str "по", str "наи"] }
    | .error (.fmt c) => ({ g with tags := ts, prefixes := [] }, some (.load (.fmt c)))
    | .ok ps => initSuffixes dir { g with tags := ts, prefixes := ps }

/-- `Init` from `morph.go` (lines 109–119): the same guard, then the
python-based directory discovery (external; its outcome is the
`discovery` argument), then `InitWith`. -/
def Init (discovery : Except LoadErr Dir) (g : Globals) : Globals × Option InitError :=
  if g.probDAWG.isSome then (g, some .alreadyInitialized) else
  match discovery with
  | .error e => (g, some (.load e))
  | .ok dir => InitWith dir g

/-- Whether a resource loaded. -/
def exceptOk : Except LoadErr α → Bool
  | .ok _ => true
  | .error _ => false

/-- Whether the paradigm-prefix list is usable: present, or absent with
the not-exist fallback. -/
def prefixesUsable : Except LoadErr (List Word) → Bool
  | .ok _ => true
  | .error .notExist => true
  | .error (.fmt _) => false

/-- The five resources (plus the prefix fallback rule) whose loading
publishes the initialization guard. -/
def coreOk (dir : Dir) : Bool :=
  exceptOk dir.tagsFile && prefixesUsable dir.prefixesFile &&
  exceptOk dir.suffixesFile && exceptOk dir.paradigmsFile &&
  exceptOk dir.wordsFile && exceptOk dir.probFile

theorem initPreds_probDAWG (dir : Dir) (g : Globals) :
    (initPreds dir g).1.probDAWG = g.probDAWG := by
  rw [initPreds]
  rcases h : loadPredsAux dir.predictionFiles 0 g.prefixes.length [] with ⟨ds, oe⟩
  cases oe <;> rfl

theorem initProb_probDAWG (dir : Dir) (g : Globals) (h : g.probDAWG = none) :
    (initProb dir g).1.probDAWG.isSome = exceptOk dir.probFile := by
  rcases hp : dir.probFile with e | d
  · simp [initProb, hp, exceptOk]
  · simp only [initProb, hp]
    rw [initPreds_probDAWG]
    simp [exceptOk]

theorem initWords_probDAWG (dir : Dir) (g : Globals) (h : g.probDAWG = none) :
    (initWords dir g).1.probDAWG.isSome =
      (exceptOk dir.wordsFile && exceptOk dir.probFile) := by
  rcases hw : dir.wordsFile with e | d
  · simp [initWords, hw, exceptOk, h]
  · simp only [initWords, hw]
    rw [initProb_probDAWG dir _ (by simpa using h)]
    simp [exceptOk]

theorem initParadigms_probDAWG (dir : Dir) (g : Globals) (h : g.probDAWG = none) :
    (initParadigms dir g).1.probDAWG.isSome =
      (exceptOk dir.paradigmsFile && exceptOk dir.wordsFile && exceptOk dir.probFile) := by
  rcases hp : dir.paradigmsFile with e | pr
  · rcases hpp : dir.paradigmsPartial with _ | part <;>
      simp [initParadigms, hp, hpp, exceptOk, h]
  · simp only [initParadigms, hp]
    rw [initWords_probDAWG dir _ (by simpa using h)]
    simp [exceptOk]

theorem initSuffixes_probDAWG (dir : Dir) (g : Globals) (h : g.probDAWG = none) :
    (initSuffixes dir g).1.probDAWG.isSome =
      (exceptOk dir.suffixesFile && exceptOk dir.paradigmsFile &&
        exceptOk dir.wordsFile && exceptOk dir.probFile) := by
  rcases hs : dir.suffixesFile with e | ss
  · simp [initSuffixes, hs, exceptOk, h]
  · simp only [initSuffixes, hs]
    rw [initParadigms_probDAWG dir _ (by simpa using h)]
    simp [exceptOk]

theorem initWith_probDAWG (dir : Dir) (g : Globals) (h : g.probDAWG = none) :
    (InitWith dir g).1.probDAWG.isSome = coreOk dir := by
  rcases ht : dir.tagsFile with e | ts
  · simp [InitWith, ht, h, coreOk, exceptOk]
  · rcases hp : dir.prefixesFile with e | ps
    · rcases e with _ | c
      · simp only [InitWith, ht, hp, if_neg (by simp [h] : ¬ g.probDAWG.isSome = true)]
        rw [initSuffixes_probDAWG dir _ (by simpa using h)]
        simp [coreOk, exceptOk, prefixesUsable, ht, hp]
      · simp [InitWith, ht, hp, h, coreOk, exceptOk, prefixesUsable]
    · simp only [InitWith, ht, hp, if_neg (by simp [h] : ¬ g.probDAWG.isSome = true)]
      rw [initSuffixes_probDAWG dir _ (by simpa using h)]
      simp [coreOk, exceptOk, prefixesUsable, ht, hp]

theorem initProb_success (dir : Dir) (g : Globals) (h : (initProb dir g).2 = none) :
    (initProb dir g).1.probDAWG.isSome = true := by
  rcases hp : dir.probFile with e | d
  · rw [initProb, hp] at h
    cases h
  · simp only [initProb, hp]
    rw [initPreds_probDAWG]
    rfl

theorem initWords_success (dir : Dir) (g : Globals) (h : (initWords dir g).2 = none) :
    (initWords dir g).1.probDAWG.isSome = true := by
  rcases hw : dir.wordsFile with e | d
  · rw [initWords, hw] at h
    cases h
  · rw [initWords, hw] at h ⊢
    exact initProb_success dir _ h

theorem initParadigms_success (dir : Dir) (g : Globals)
    (h : (initParadigms dir g).2 = none) :
    (initParadigms dir g).1.probDAWG.isSome = true := by
  rcases hp : dir.paradigmsFile with e | pr
  · rw [initParadigms, hp] at h
    rcases hpp : dir.paradigmsPartial with _ | part <;> rw [hpp] at h <;> cases h
  · rw [initParadigms, hp] at h ⊢
    exact initWords_success dir _ h

theorem initSuffixes_success (dir : Dir) (g : Globals)
    (h : (initSuffixes dir g).2 = none) :
    (initSuffixes dir g).1.probDAWG.isSome = true := by
  rcases hs : dir.suffixesFile with e | ss
  · rw [initSuffixes, hs] at h
    cases h
  · rw [initSuffixes, hs] at h ⊢
    exact initParadigms_success dir _ h

theorem initWith_success (dir : Dir) (g : Globals) (h : (InitWith dir g).2 = none) :
    (InitWith dir g).1.probDAWG.isSome = true := by
  by_cases hg : g.probDAWG.isSome = true
  · rw [InitWith, if_pos hg] at h
    cases h
  · rcases ht : dir.tagsFile with e | ts
    · rw [InitWith, if_neg hg, ht] at h
      cases h
    · rcases hp : dir.prefixesFile with e | ps
      · rcases e with _ | c
        · rw [InitWith, if_neg hg, ht, hp] at h ⊢
          exact initSuffixes_success dir _ h
        · rw [InitWith, if_neg hg, ht, hp] at h
          cases h
      · rw [InitWith, if_neg hg, ht, hp] at h ⊢
        exact initSuffixes_success dir _ h

/-- Claim C10: after one successful initialization, every later call to
`Init` or `InitWith` fails fast with the same distinct "already
initialized" error and returns the loaded state unmodified. -/
theorem reinit_guard (dir₀ dir : Dir) (disc : Except LoadErr Dir) (g₀ : Globals)
    (h : (InitWith dir₀ g₀).2 = none) :
    InitWith dir (InitWith dir₀ g₀).1 =
      ((InitWith dir₀ g₀).1, some InitError.alreadyInitialized) ∧
    Init disc (InitWith dir₀ g₀).1 =
      ((InitWith dir₀ g₀).1, some InitError.alreadyInitialized) := by
  have hsome := initWith_success dir₀ g₀ h
  exact ⟨by rw [InitWith, if_pos hsome], by rw [Init.eq_def, if_pos hsome]⟩

/-- The zero-valued globals before any initialization. -/
def gEmpty : Globals :=
  ⟨[], [], [], [], none, none, []⟩

/-- Globals carrying a recognizable previous tags table. -/
def gOld : Globals :=
  { gEmpty with tags := [str "OLD"] }

/-- A directory whose every resource loads (with an empty prefix table,
so no prediction automata are required). -/
def dirOk : Dir where
  tagsFile := .ok []
  prefixesFile := .ok []
  suffixesFile := .ok []
  paradigmsFile := .ok []
  paradigmsPartial := none
  wordsFile := .ok fun _ => []
  probFile := .ok fun _ => 0
  predictionFiles := fun _ => .ok fun _ => []

/-- A directory where tags load but the suffixes resource is corrupt. -/
def dirBad : Dir :=
  { dirOk with tagsFile := .ok [str "T"], suffixesFile := .error (.fmt 0) }

/-- Counterexample to claim C9 as stated: a failed `InitWith` does leave
partial state globally visible — with the suffixes resource corrupt the
call returns an error, yet the freshly loaded tags table has already
replaced the process-wide value. -/
theorem initwith_partial_state_cex :
    (InitWith dirBad gOld).2 = some (InitError.load (LoadErr.fmt 0)) ∧
    (InitWith dirBad gOld).1.tags = [str "T"] ∧
    gOld.tags = [str "OLD"] ∧
    (InitWith dirBad gOld).1.tags ≠ gOld.tags :=
  ⟨rfl, rfl, rfl, by decide⟩

/-- Claim C9 (amended): a failed `InitWith` returns an error, but does
not have atomic-success-or-untouched semantics — tables loaded before
the failing resource stay globally visible; what holds is that the
initialized-state guard (the probability automaton) is published exactly
when tags, prefixes (or their not-exist fallback), suffixes, paradigms,
lexical and probability resources all load, so a failure before that
point leaves the analyzer still uninitialized and retryable. -/
theorem initwith_guard_amended (dir : Dir) (g : Globals) (h : g.probDAWG = none) :
    ((InitWith dir g).1.probDAWG.isSome = true ↔ coreOk dir = true) ∧
    ((InitWith dir g).2 = none → coreOk dir = true) := by
  constructor
  · rw [initWith_probDAWG dir g h]
  · intro hs
    rw [← initWith_probDAWG dir g h]
    exact initWith_success dir g hs

theorem initwith_guard_amended_witness :
    (gOld.probDAWG = none ∧
      ((InitWith dirBad gOld).1.probDAWG.isSome = true ↔ coreOk dirBad = true)) ∧
    (gEmpty.probDAWG = none ∧
      ((InitWith dirOk gEmpty).2 = none → coreOk dirOk = true)) :=
  ⟨⟨rfl, (initwith_guard_amended dirBad gOld rfl).1⟩,
   ⟨rfl, (initwith_guard_amended dirOk gEmpty rfl).2⟩⟩

theorem reinit_guard_witness :
    (InitWith dirOk gEmpty).2 = none ∧
    InitWith dirOk (InitWith dirOk gEmpty).1 =
      ((InitWith dirOk gEmpty).1, some InitError.alreadyInitialized) ∧
    Init (Except.ok dirOk) (InitWith dirOk gEmpty).1 =
      ((InitWith dirOk gEmpty).1, some InitError.alreadyInitialized) :=
  ⟨rfl, (reinit_guard dirOk dirOk (Except.ok dirOk) gEmpty rfl).1,
   (reinit_guard dirOk dirOk (Except.ok dirOk) gEmpty rfl).2⟩

theorem char_le_iff_toNat (a b : Char) : a ≤ b ↔ a.toNat ≤ b.toNat := Iff.rfl

theorem toNat_ofNat_valid (n : Nat) (h : n.isValidChar) : (Char.ofNat n).toNat = n := by
  rw [Char.ofNat, dif_pos h]
  rfl

theorem lowerChar_idem (c : Char) : lowerChar (lowerChar c) = lowerChar c := by
  by_cases h1 : 'A' ≤ c ∧ c ≤ 'Z'
  · have hlo : 65 ≤ c.toNat := (char_le_iff_toNat 'A' c).1 h1.1
    have hhi : c.toNat ≤ 90 := (char_le_iff_toNat c 'Z').1 h1.2
    have hval : (c.toNat + 32).isValidChar := Or.inl (by omega)
    have hx : (Char.ofNat (c.toNat + 32)).toNat = c.toNat + 32 := toNat_ofNat_valid _ hval
    have hstep : lowerChar c = Char.ofNat (c.toNat + 32) := by
      rw [lowerChar, if_pos h1]
    rw [hstep, lowerChar, if_neg, if_neg, if_neg]
    · intro he
      have := congrArg Char.toNat he
      rw [hx] at this
      have : (1025 : Nat) = c.toNat + 32 := by simpa using this.symm
      omega
    · rintro ⟨ha, hb⟩
      have := (char_le_iff_toNat _ _).1 ha
      rw [hx] at this
      have h2 : ('А' : Char).toNat = 1040 := by decide
      omega
    · rintro ⟨ha, hb⟩
      have := (char_le_iff_toNat _ _).1 hb
      rw [hx] at this
      have h2 : ('Z' : Char).toNat = 90 := by decide
      omega
  · by_cases h2 : 'А' ≤ c ∧ c ≤ 'Я'
    · have hlo : 1040 ≤ c.toNat := by
        have := (char_le_iff_toNat 'А' c).1 h2.1
        simpa using this
      have hhi : c.toNat ≤ 1071 := by
        have := (char_le_iff_toNat c 'Я').1 h2.2
        simpa using this
      have hval : (c.toNat + 32).isValidChar := Or.inl (by omega)
      have hx : (Char.ofNat (c.toNat + 32)).toNat = c.toNat + 32 := toNat_ofNat_valid _ hval
      have hstep : lowerChar c = Char.ofNat (c.toNat + 32) := by
        rw [lowerChar, if_neg h1, if_pos h2]
      rw [hstep, lowerChar, if_neg, if_neg, if_neg]
      · intro he
        have := congrArg Char.toNat he
        rw [hx] at this
        have : (1025 : Nat) = c.toNat + 32 := by simpa using this.symm
        omega
      · rintro ⟨ha, hb⟩
        have := (char_le_iff_toNat _ _).1 hb
        rw [hx] at this
        have hz : ('Я' : Char).toNat = 1071 := by decide
        omega
      · rintro ⟨ha, hb⟩
        have := (char_le_iff_toNat _ _).1 hb
        rw [hx] at this
        have hz : ('Z' : Char).toNat = 90 := by decide
        omega
    · by_cases h3 : c = 'Ё'
      · subst h3
        decide
      · have hfix : lowerChar c = c := by
          rw [lowerChar, if_neg h1, if_neg h2, if_neg h3]
        rw [hfix, hfix]

theorem toLowerRu_idem (w : Word) : toLowerRu (toLowerRu w) = toLowerRu w := by
  rw [toLowerRu, toLowerRu, List.map_map]
  exact List.map_congr_left fun c _ => lowerChar_idem c

theorem toLowerRu_length (w : Word) : (toLowerRu w).length = w.length := by
  simp [toLowerRu]

theorem toLowerRu_append (u v : Word) :
    toLowerRu (u ++ v) = toLowerRu u ++ toLowerRu v := by
  simp [toLowerRu]

theorem trimSuff_length_lt (w p : Word) (hs : p.isSuffixOf w = true) (hne : p ≠ []) :
    (trimSuff w p).length < w.length := by
  have hsuf : p <:+ w := List.isSuffixOf_iff_suffix.1 hs
  have hle : p.length ≤ w.length := hsuf.length_le
  have hpos : 0 < p.length := List.length_pos.2 hne
  rw [trimSuff, if_pos hs, List.length_take]
  omega

theorem takeWhile_hyphen_length_lt (w : Word) (h : '-' ∈ w) :
    (w.takeWhile (· ≠ '-')).length < w.length := by
  induction w with
  | nil => cases h
  | cons a w ih =>
    by_cases ha : a = '-'
    · subst ha
      simp [List.takeWhile_cons]
    · have hm : '-' ∈ w := by
        rcases List.mem_cons.1 h with he | hm
        · exact absurd he.symm ha
        · exact hm
      rw [List.takeWhile_cons, if_pos (by simpa using ha)]
      have := ih hm
      simp only [List.length_cons]
      omega

theorem dropWhile_length_le (p : Char → Bool) (w : Word) :
    (w.dropWhile p).length ≤ w.length := by
  induction w with
  | nil => simp [List.dropWhile]
  | cons a w ih =>
    rw [List.dropWhile_cons]
    split
    · simp only [List.length_cons]
      omega
    · simp

theorem hyphen_right_length_lt (w : Word) (h : '-' ∈ w) :
    ((w.dropWhile (· ≠ '-')).drop 1).length < w.length := by
  have h1 : (w.dropWhile (· ≠ '-')).length ≤ w.length := dropWhile_length_le _ w
  have h0 : 0 < w.length := List.length_pos.2 (by rintro rfl; cases h)
  rw [List.length_drop]
  omega

theorem flatMap_congr_mem (l : List α) (f g : α → List β)
    (h : ∀ a ∈ l, f a = g a) : l.flatMap f = l.flatMap g := by
  induction l with
  | nil => rfl
  | cons a l ih =>
    rw [List.flatMap_cons, List.flatMap_cons, h a (List.mem_cons_self a l),
      ih fun b hb => h b (List.mem_cons_of_mem a hb)]

theorem tryParticles_congr (rec₁ rec₂ : Word → List Analysis) (w : Word) (l : List Word)
    (hne : ∀ p ∈ l, p ≠ [])
    (hrec : ∀ v : Word, v.length < w.length → rec₁ v = rec₂ v) :
    tryParticles rec₁ w l = tryParticles rec₂ w l := by
  induction l with
  | nil => rfl
  | cons p ps ih =>
    rw [tryParticles, tryParticles]
    by_cases hs : p.isSuffixOf w = true
    · rw [if_pos hs, if_pos hs,
        hrec (trimSuff w p) (trimSuff_length_lt w p hs (hne p (List.mem_cons_self p ps)))]
      by_cases hr : rec₂ (trimSuff w p) ≠ []
      · rw [if_pos hr, if_pos hr]
      · rw [if_neg hr, if_neg hr]
        exact ih fun q hq => hne q (List.mem_cons_of_mem p hq)
    · rw [if_neg hs, if_neg hs]
      exact ih fun q hq => hne q (List.mem_cons_of_mem p hq)

theorem stripKnown_congr (rec₁ rec₂ : Word → List Analysis) (ps : List Word) (w : Word)
    (hne : ∀ p ∈ ps, p ≠ [])
    (hrec : ∀ v : Word, v.length < w.length → rec₁ v = rec₂ v) :
    stripKnown rec₁ ps w = stripKnown rec₂ ps w := by
  rw [stripKnown, stripKnown]
  refine flatMap_congr_mem ps _ _ fun p hp => ?_
  by_cases hc : (p.isPrefixOf w && decide (3 ≤ (w.drop p.length).length)) = true
  · rw [if_pos hc, if_pos hc]
    have hpre : p <+: w := List.isPrefixOf_iff_prefix.1 (Bool.and_elim_left hc)
    have hple : p.length ≤ w.length := hpre.length_le
    have hppos : 0 < p.length := List.length_pos.2 (hne p hp)
    rw [hrec (w.drop p.length) (by rw [List.length_drop]; omega)]
  · rw [if_neg hc, if_neg hc]

theorem hyphenCompound_congr (rec₁ rec₂ : Word → List Analysis) (w : Word)
    (hh : '-' ∈ w)
    (hrec : ∀ v : Word, v.length < w.length → rec₁ v = rec₂ v) :
    hyphenCompound rec₁ w = hyphenCompound rec₂ w := by
  rw [hyphenCompound, hyphenCompound,
    hrec (hyphenParts w).1 (takeWhile_hyphen_length_lt w hh),
    hrec (hyphenParts w).2 (hyphen_right_length_lt w hh)]

set_option maxRecDepth 1000000 in
theorem knownPrefixesSorted_ne_nil : ∀ p ∈ knownPrefixesSorted, p ≠ [] := by decide

theorem particles_ne_nil : ∀ p ∈ particlesAfterHyphen, p ≠ [] := by decide

theorem xparseBody_congr (env : Env) (rec₁ rec₂ : Word → List Analysis) (w : Word)
    (hrec : ∀ v : Word, v.length < w.length → rec₁ v = rec₂ v) :
    xparseBody rec₁ env w = xparseBody rec₂ env w := by
  rw [xparseBody, xparseBody]
  by_cases hd : ParseRows env w ≠ []
  · rw [if_pos hd, if_pos hd]
  · rw [if_neg hd, if_neg hd]
    have hA : (if w.contains '-' then tryParticles rec₁ w particlesAfterHyphen else none)
        = (if w.contains '-' then tryParticles rec₂ w particlesAfterHyphen else none) := by
      by_cases hh : w.contains '-' = true
      · rw [if_pos hh, if_pos hh,
          tryParticles_congr rec₁ rec₂ w particlesAfterHyphen particles_ne_nil hrec]
      · rw [if_neg hh, if_neg hh]
    have hB : (if 5 ≤ w.length ∧ (str "по-").isPrefixOf w
          then advbRow (rec₁ (w.drop 3)) else none)
        = (if 5 ≤ w.length ∧ (str "по-").isPrefixOf w
          then advbRow (rec₂ (w.drop 3)) else none) := by
      by_cases hc : 5 ≤ w.length ∧ ((str "по-").isPrefixOf w : Bool) = true
      · rw [if_pos hc, if_pos hc, hrec (w.drop 3) (by rw [List.length_drop]; omega)]
      · rw [if_neg hc, if_neg hc]
    have hC : stripKnown rec₁ knownPrefixesSorted w = stripKnown rec₂ knownPrefixesSorted w :=
      stripKnown_congr rec₁ rec₂ knownPrefixesSorted w knownPrefixesSorted_ne_nil hrec
    have hD : (if (w.contains '-' && (w.count '-' == 1) &&
              !((str "-").isPrefixOf w) && !((str "-").isSuffixOf w)) = true ∧
                hyphenCompound rec₁ w ≠ []
            then some (hyphenCompound rec₁ w) else none)
        = (if (w.contains '-' && (w.count '-' == 1) &&
              !((str "-").isPrefixOf w) && !((str "-").isSuffixOf w)) = true ∧
                hyphenCompound rec₂ w ≠ []
            then some (hyphenCompound rec₂ w) else none) := by
      by_cases hb : (w.contains '-' && (w.count '-' == 1) &&
          !((str "-").isPrefixOf w) && !((str "-").isSuffixOf w)) = true
      · have hmem : '-' ∈ w := by
          have h1 : w.contains '-' = true := by
            rcases Bool.and_eq_true_iff.1 hb with ⟨h2, _⟩
            rcases Bool.and_eq_true_iff.1 h2 with ⟨h3, _⟩
            exact (Bool.and_eq_true_iff.1 h3).1
          simpa using h1
        rw [hyphenCompound_congr rec₁ rec₂ w hmem hrec]
      · rw [if_neg (fun hc => hb hc.1), if_neg (fun hc => hb hc.1)]
    rw [hA, hB, hC, hD]

theorem xparseCore_congr (env : Env) : ∀ (n : Nat) (w : Word), w.length ≤ n →
    ∀ f₁ f₂, w.length < f₁ → w.length < f₂ →
      xparseCore f₁ env w = xparseCore f₂ env w := by
  intro n
  induction n with
  | zero =>
    intro w hw f₁ f₂ h₁ h₂
    rcases f₁ with _ | a
    · omega
    rcases f₂ with _ | b
    · omega
    rw [xparseCore, xparseCore]
    refine xparseBody_congr env _ _ _ fun v hv => ?_
    rw [toLowerRu_length] at hv
    omega
  | succ n ih =>
    intro w hw f₁ f₂ h₁ h₂
    rcases f₁ with _ | a
    · omega
    rcases f₂ with _ | b
    · omega
    rw [xparseCore, xparseCore]
    refine xparseBody_congr env _ _ _ fun v hv => ?_
    rw [toLowerRu_length] at hv
    exact ih v (by omega) a b (by omega) (by omega)

/-- Any fuel exceeding the word length computes `XParseRows`. -/
theorem xparseCore_eq_rows (env : Env) (w : Word) (f : Nat) (h : w.length < f) :
    xparseCore f env w = XParseRows env w :=
  xparseCore_congr env w.length w le_rfl f (w.length + 1) h (by omega)

/-- `XParse` lowercases on entry, and lowering is idempotent, so the core
is insensitive to pre-lowering its argument. -/
theorem xparseCore_toLower (env : Env) (f : Nat) (w : Word) :
    xparseCore f env (toLowerRu w) = xparseCore f env w := by
  cases f with
  | zero => rfl
  | succ f => rw [xparseCore, xparseCore, toLowerRu_idem]

theorem particles_suffix_eq :
    ∀ p ∈ particlesAfterHyphen, ∀ q ∈ particlesAfterHyphen,
      p.isSuffixOf q = true → p = q := by decide

theorem particles_lower : ∀ s ∈ particlesAfterHyphen, toLowerRu s = s := by decide

theorem particles_hyphen : ∀ s ∈ particlesAfterHyphen, '-' ∈ s := by decide

theorem trimSuff_append (u s : Word) : trimSuff (u ++ s) s = u := by
  have hsuf : s.isSuffixOf (u ++ s) = true :=
    List.isSuffixOf_iff_suffix.2 (List.suffix_append u s)
  rw [trimSuff, if_pos hsuf, List.length_append]
  have he : u.length + s.length - s.length = u.length := by omega
  rw [he, List.take_left]

theorem parseRows_nil (env : Env) (w : Word) (h : parseRaw env w = []) :
    ParseRows env w = [] := by
  rw [ParseRows, parseRanked, h]
  rfl

theorem tryParticles_reaches (rec : Word → List Analysis) (W s : Word) (l : List Word)
    (hsuf : s.isSuffixOf W = true)
    (hres : rec (trimSuff W s) ≠ []) :
    ∀ _hmem : s ∈ l, (∀ q ∈ l, q.isSuffixOf W = true → q = s) →
    tryParticles rec W l =
      some ((rec (trimSuff W s)).map fun r => ⟨r.word ++ s, r.norm ++ s, r.tag⟩) := by
  induction l with
  | nil => intro hmem _; cases hmem
  | cons p ps ih =>
    intro hmem huniq
    by_cases hps : p = s
    · subst hps
      rw [tryParticles, if_pos hsuf, if_pos hres]
    · have hns : ¬ p.isSuffixOf W = true :=
        fun hc => hps (huniq p (List.mem_cons_self p ps) hc)
      rw [tryParticles, if_neg hns]
      refine ih ?_ fun q hq => huniq q (List.mem_cons_of_mem p hq)
      rcases List.mem_cons.1 hmem with he | hm
      · exact absurd he.symm hps
      · exact hm

/-- A dictionary containing both the hyphenated word "a-то" (tag X) and
its base "a" (tag Y). -/
def envC6 : Env where
  prefixes := [[]]
  suffixes := [[]]
  tags := [str "X", str "Y"]
  paradigms := [[0, 0, 0], [0, 1, 0]]
  similarItems := fun w =>
    if w = str "a-то" then [⟨str "a-то", [⟨0, 0⟩]⟩]
    else if w = str "a" then [⟨str "a", [⟨1, 0⟩]⟩]
    else []
  probFind := fun _ => 0
  predictionItems := [fun _ => []]

/-- Counterexample to claim C6 as stated: when the full hyphenated word
is itself present in the dictionary, the dictionary result wins and the
particle strategy never runs, so although the base "a" is analyzable and
"то" is a known particle, the tag list of `XParse("a-то")` differs from
that of `XParse("a")`. -/
theorem particle_roundtrip_cex :
    (str "то") ∈ (particlesAfterHyphen.map fun p => p.drop 1) ∧
    str "a" ++ str "-" ++ str "то" = str "a" ++ str "-то" ∧
    (XParse envC6 (str "a")).1 ≠ [] ∧
    (XParse envC6 (str "a" ++ str "-то")).2.2 ≠ (XParse envC6 (str "a")).2.2 := by
  refine ⟨by decide, by decide, by decide, by decide⟩

/-- Claim C6 (amended): for all words `base + particle-suffix` with the
particle in the known set, provided the dictionary analyzer does not
recognize the (lowercased) full word and the base is analyzable, every
analysis `XParse` returns is the corresponding base analysis with the
literal particle text reattached to word and normal form — so words and
norms end with the particle and the tag list equals that of
`XParse(base)`. -/
theorem particle_roundtrip_amended (env : Env) (base s : Word)
    (hs : s ∈ particlesAfterHyphen)
    (hmiss : parseRaw env (toLowerRu (base ++ s)) = [])
    (hbase : XParseRows env base ≠ []) :
    XParse env (base ++ s) =
      ((XParseRows env base).map fun r => r.word ++ s,
       (XParseRows env base).map fun r => r.norm ++ s,
       (XParseRows env base).map fun r => r.tag) ∧
    (XParse env (base ++ s)).2.2 = (XParse env base).2.2 ∧
    (∀ u ∈ (XParse env (base ++ s)).1, s.isSuffixOf u = true) ∧
    (∀ u ∈ (XParse env (base ++ s)).2.1, s.isSuffixOf u = true) := by
  have hls : toLowerRu s = s := particles_lower s hs
  have hW : toLowerRu (base ++ s) = toLowerRu base ++ s := by
    rw [toLowerRu_append, hls]
  have hsne : s ≠ [] := particles_ne_nil s hs
  have hspos : 0 < s.length := List.length_pos.2 hsne
  have hdict : ParseRows env (toLowerRu base ++ s) = [] := by
    rw [← hW]
    exact parseRows_nil env _ hmiss
  have hcont : (toLowerRu base ++ s).contains '-' = true := by
    have : '-' ∈ toLowerRu base ++ s :=
      List.mem_append_right _ (particles_hyphen s hs)
    simpa using this
  have hsufW : s.isSuffixOf (toLowerRu base ++ s) = true :=
    List.isSuffixOf_iff_suffix.2 (List.suffix_append _ s)
  have hL : (base ++ s).length = base.length + s.length := List.length_append base s
  have hcore : xparseCore (base ++ s).length env (toLowerRu base) = XParseRows env base := by
    rw [xparseCore_toLower]
    exact xparseCore_eq_rows env base (base ++ s).length (by omega)
  have htrim : trimSuff (toLowerRu base ++ s) s = toLowerRu base := trimSuff_append _ s
  have hres : xparseCore (base ++ s).length env (trimSuff (toLowerRu base ++ s) s) ≠ [] := by
    rw [htrim, hcore]
    exact hbase
  have huniq : ∀ q ∈ particlesAfterHyphen,
      q.isSuffixOf (toLowerRu base ++ s) = true → q = s := by
    intro q hq hqsuf
    have h1 : q <:+ toLowerRu base ++ s := List.isSuffixOf_iff_suffix.1 hqsuf
    have h2 : s <:+ toLowerRu base ++ s := List.suffix_append _ s
    rcases List.suffix_or_suffix_of_suffix h1 h2 with h3 | h3
    · exact particles_suffix_eq q hq s hs (List.isSuffixOf_iff_suffix.2 h3)
    · exact (particles_suffix_eq s hs q hq (List.isSuffixOf_iff_suffix.2 h3)).symm
  have htry : tryParticles (xparseCore (base ++ s).length env)
        (toLowerRu base ++ s) particlesAfterHyphen =
      some ((xparseCore (base ++ s).length env (trimSuff (toLowerRu base ++ s) s)).map
        fun r => ⟨r.word ++ s, r.norm ++ s, r.tag⟩) :=
    tryParticles_reaches _ _ s particlesAfterHyphen hsufW hres hs huniq
  have hrows : XParseRows env (base ++ s) =
      (XParseRows env base).map fun r => ⟨r.word ++ s, r.norm ++ s, r.tag⟩ := by
    show xparseCore ((base ++ s).length + 1) env (base ++ s) = _
    rw [xparseCore, hW, xparseBody, if_neg (fun hne => hne hdict), if_pos hcont, htry,
      htrim, hcore]
  refine ⟨?_, ?_, ?_, ?_⟩
  · show toTriple (XParseRows env (base ++ s)) = _
    rw [hrows]
    simp [toTriple, List.map_map]
  · show (toTriple (XParseRows env (base ++ s))).2.2 = (toTriple (XParseRows env base)).2.2
    rw [hrows]
    simp [toTriple, List.map_map]
  · intro u hu
    rcases List.mem_map.1 (by simpa [XParse, toTriple, hrows, List.map_map] using hu)
      with ⟨r, _, rfl⟩
    exact List.isSuffixOf_iff_suffix.2 (List.suffix_append _ s)
  · intro u hu
    rcases List.mem_map.1 (by simpa [XParse, toTriple, hrows, List.map_map] using hu)
      with ⟨r, _, rfl⟩
    exact List.isSuffixOf_iff_suffix.2 (List.suffix_append _ s)

theorem particle_roundtrip_amended_witness :
    ((str "-то") ∈ particlesAfterHyphen ∧
      parseRaw envDict (toLowerRu (str "cat" ++ str "-то")) = [] ∧
      XParseRows envDict (str "cat") ≠ []) ∧
    XParse envDict (str "cat" ++ str "-то") =
      ((XParseRows envDict (str "cat")).map fun r => r.word ++ str "-то",
       (XParseRows envDict (str "cat")).map fun r => r.norm ++ str "-то",
       (XParseRows envDict (str "cat")).map fun r => r.tag) :=
  ⟨⟨by decide, by decide, by decide⟩,
   (particle_roundtrip_amended envDict (str "cat") (str "-то")
      (by decide) (by decide) (by decide)).1⟩
